import Mathlib

/-!
Shallow embedding of `src/fasttp.py` (FastTP test-case prioritization).

Modelling conventions:
* Python strings are `String`; Python sets and dicts are lists
  (dicts as association lists queried with `List.lookup`); set/dict
  membership is list membership / `lookup … ≠ none`.
* Python floats are modelled as `Rat` (the arithmetic performed by the
  program is integer sums and a single division).
* The `while` loop of `bfs_features` is embedded as a fuel-indexed
  recursion `bfsLoop`; `bfsFuel` is the canonical fuel and
  `bfsLoop_isSome` proves it always suffices, so the fuel is an
  implementation device, not a semantic restriction.
-/

namespace FastTP

/-- One step state of the loop in `bfs_features` (src/fasttp.py lines 71-82):
the deque holds `(node, dist)` pairs, `visited` is the visited set, and the
three accumulators are `number_changed_dep`, `len_shortest_path`,
`avg_len_shortest_paths` (the latter an integer sum until the final division).
Returns `none` when the fuel runs out before the queue empties. -/
def bfsLoop (deps : List (String × List String)) (changed : List String) :
    Nat → List (String × Nat) → List String → Nat → Nat → Nat →
    Option (Nat × Nat × Nat)
  | _, [], _, cnt, minD, sumD => some (cnt, minD, sumD)
  | 0, _ :: _, _, _, _, _ => none
  | fuel + 1, (v, d) :: rest, visited, cnt, minD, sumD =>
    if v ∈ visited then
      bfsLoop deps changed fuel rest visited cnt minD sumD
    else
      let cnt' := if v ∈ changed then cnt + 1 else cnt
      let minD' := if v ∈ changed then (if d < minD then d else minD) else minD
      let sumD' := if v ∈ changed then sumD + d else sumD
      match List.lookup v deps with
      | some ds =>
        bfsLoop deps changed fuel (rest ++ ds.map (fun w => (w, d + 1)))
          (v :: visited) cnt' minD' sumD'
      | none =>
        bfsLoop deps changed fuel rest (v :: visited) cnt' minD' sumD'

/-- Canonical fuel for `bfsLoop`: total number of dependency edges in the
graph plus one (the initial queue length). -/
def bfsFuel (deps : List (String × List String)) : Nat :=
  (deps.map (fun p => p.2.length)).sum + 1

/-- Run of the BFS loop of `bfs_features` from its initial state
(src/fasttp.py lines 65-82): queue `[(test, 0)]`, empty visited set,
`number_changed_dep = 0`, `len_shortest_path = 999999`, sum `0`. -/
def bfsRun (test : String) (deps : List (String × List String))
    (changed : List String) : Option (Nat × Nat × Nat) :=
  bfsLoop deps changed (bfsFuel deps) [(test, 0)] [] 0 999999 0

/-- Embedding of `bfs_features` (src/fasttp.py lines 64-89): BFS feature
vector `(number_changed_dep, len_shortest_path, avg_len_shortest_paths)`.
The average is the integer sum divided by the count when the count is
nonzero, otherwise `len_shortest_path` itself (lines 84-87). The `none`
branch is unreachable (`bfsLoop_isSome`). -/
def bfs_features (test : String) (deps : List (String × List String))
    (changed : List String) : Nat × Nat × Rat :=
  match bfsRun test deps changed with
  | some (cnt, minD, sumD) =>
    if cnt ≠ 0 then (cnt, minD, (sumD : Rat) / (cnt : Rat))
    else (cnt, minD, (minD : Rat))
  | none => (0, 999999, (999999 : Rat))

/-- Out-degree mass of the graph keys not yet visited. Together with the
queue length it is a strict variant of the loop: it drops by at least one
every iteration. -/
def unvisitedEdges : List (String × List String) → List String → Nat
  | [], _ => 0
  | e :: rest, visited =>
    (if e.1 ∈ visited then 0 else e.2.length) + unvisitedEdges rest visited

/-- Graph reachability along the dependency edges used by the BFS: `w` is
reachable from `root` if `w = root` or some reachable `v` has `w` among
`dependencies[v]`. -/
inductive Reach (deps : List (String × List String)) (root : String) :
    String → Prop
  | refl : Reach deps root root
  | step {v w : String} {ds : List String} : Reach deps root v →
      List.lookup v deps = some ds → w ∈ ds → Reach deps root w

/-- Descending order on `(score, test-path)` pairs: exactly the order in
which `sorted(ranked, reverse=True)` (src/fasttp.py line 95) lists the
pairs, Python comparing tuples lexicographically (score first, then the
path string by code points, which is `String`'s order). -/
def pairDesc (a b : Rat × String) : Prop :=
  b.1 < a.1 ∨ (b.1 = a.1 ∧ b.2 ≤ a.2)

instance pairDesc.decidableRel : DecidableRel pairDesc := fun _ _ => by
  unfold pairDesc
  infer_instance

instance pairDesc.isTotal : IsTotal (Rat × String) pairDesc := by
  constructor
  intro a b
  rcases lt_trichotomy a.1 b.1 with h | h | h
  · exact Or.inr (Or.inl h)
  · rcases le_total b.2 a.2 with h2 | h2
    · exact Or.inl (Or.inr ⟨h.symm, h2⟩)
    · exact Or.inr (Or.inr ⟨h, h2⟩)
  · exact Or.inl (Or.inl h)

instance pairDesc.isTrans : IsTrans (Rat × String) pairDesc := by
  constructor
  intro a b c hab hbc
  rcases hab with h1 | ⟨h1, h1'⟩ <;> rcases hbc with h2 | ⟨h2, h2'⟩
  · exact Or.inl (h2.trans h1)
  · exact Or.inl (h2.trans_lt h1)
  · exact Or.inl (h2.trans_eq h1)
  · exact Or.inr ⟨h2.trans h1, h2'.trans h1'⟩

/-- Embedding of `rank` (src/fasttp.py lines 91-95). `predict` is the
external model's batched `model.predict` (one score per input row, in row
order); the score of a changed test is overridden to `1.0`. The two `zip`s
mirror the generator pipeline of the source. `sorted(ranked, reverse=True)`
sorts in descending tuple order; `pairDesc` is that order, and since it is
total, transitive and antisymmetric the sorted permutation is unique, so
`insertionSort` is extensionally Python's `sorted`. -/
def rank (predict : List (Nat × Nat × Rat) → List Rat) (tests : List String)
    (deps : List (String × List String)) (changed : List String) :
    List (Rat × String) :=
  let features := tests.map (fun test => bfs_features test deps changed)
  let scores := ((predict features).zip tests).map
    (fun vt => if vt.2 ∈ changed then (1 : Rat) else vt.1)
  let ranked := scores.zip tests
  List.insertionSort pairDesc ranked

/-- Change set computed in `tp` (src/fasttp.py line 109): the dict
comprehension over `new_hashes.items()` keeping the files absent from
`old_hashes` or whose current hash differs from the prior one. Dicts are
association lists read with `List.lookup`; the key uniqueness a Python dict
guarantees is a hypothesis where a claim needs it. -/
def changedFiles (newHashes oldHashes : List (String × String)) :
    List String :=
  (newHashes.filter (fun p =>
    match List.lookup p.1 oldHashes with
    | none => true
    | some h => decide (p.2 ≠ h))).map Prod.fst

/-- Embedding of `load_hashes` (src/fasttp.py lines 21-26). The filesystem
read of `.fasttp/hashes.json` is external; its outcome is the `prior`
argument (`some m` when a mapping was read, `none` when the file is missing
or unreadable). The bare `except` turns the failure into the empty
mapping. -/
def load_hashes (prior : Option (List (String × String))) :
    List (String × String) :=
  match prior with
  | some m => m
  | none => []

/-- Extractor output (`dext.extract`, spec §6): file id ↦ (dependency ids,
candidate locations `(path, extension, source)`), in insertion order. -/
abbrev ExtractMap :=
  List (String × List String × List (String × String × String))

/-- Resolution of one file's dependency references (src/fasttp.py lines
59-61): every `dep` id is looked up in the extractor output and each of its
candidate locations contributes one project-relative path. `relp` stands
for `relpath (·, project_folder)`. A missing id contributes nothing (the
Python would raise `KeyError`; the extractor's output is closed over its
own ids). -/
def resolveDeps (files : ExtractMap) (relp : String → String)
    (deps : List String) : List String :=
  deps.flatMap (fun dep =>
    (((List.lookup dep files).getD ([], [])).2).map (fun it => relp it.1))

/-- Python dict assignment `dependencies[path1] = v` on an association
list: replace the value at an existing key in place, otherwise append. -/
def setKey : List (String × List String) → String → List String →
    List (String × List String)
  | [], k, v => [(k, v)]
  | p :: rest, k, v =>
    if p.1 = k then (k, v) :: rest else p :: setKey rest k v

/-- Inner loops of `get_dependencies` (src/fasttp.py lines 56-61): each
candidate location of a file with dependencies gets a graph entry mapping
its project-relative path to the fully resolved dependency list (the source
first assigns `[]`, then appends every resolved path; the net effect on the
dict is this single assignment). -/
def addItems (files : ExtractMap) (relp : String → String)
    (deps : List String) :
    List (String × String × String) → List (String × List String) →
    List (String × List String)
  | [], acc => acc
  | it :: items, acc =>
    addItems files relp deps items
      (setKey acc (relp it.1) (resolveDeps files relp deps))

/-- Outer loop of `get_dependencies` (src/fasttp.py lines 54-61) over the
extractor's entries, skipping files with an empty dependency set
(`if deps:`). -/
def buildDeps (files : ExtractMap) (relp : String → String) :
    ExtractMap → List (String × List String) → List (String × List String)
  | [], acc => acc
  | e :: rest, acc =>
    buildDeps files relp rest
      (if e.2.1.isEmpty then acc else addItems files relp e.2.1 e.2.2 acc)

/-- Embedding of `get_dependencies` (src/fasttp.py lines 51-62): the
dependency graph built from the extractor output (the returned `count` is
unused by the source). -/
def get_dependencies (files : ExtractMap) (relp : String → String) :
    List (String × List String) :=
  buildDeps files relp files []

/-- Keys written by `get_dependencies`: the resolved paths of every
candidate location of every entry with a nonempty dependency set. -/
def touchedKeys (files : ExtractMap) (relp : String → String) :
    List String :=
  (files.filter (fun e => !e.2.1.isEmpty)).flatMap
    (fun e => e.2.2.map (fun it => relp it.1))

theorem unvisitedEdges_nil_right (deps : List (String × List String)) :
    unvisitedEdges deps [] = (deps.map (fun p => p.2.length)).sum := by
  induction deps with
  | nil => simp [unvisitedEdges]
  | cons e rest ih => simp [unvisitedEdges, ih]

theorem unvisitedEdges_cons_le (deps : List (String × List String))
    (visited : List String) (v : String) :
    unvisitedEdges deps (v :: visited) ≤ unvisitedEdges deps visited := by
  induction deps with
  | nil => exact Nat.le_refl _
  | cons e rest ih =>
    simp only [unvisitedEdges]
    apply Nat.add_le_add _ ih
    by_cases h1 : e.1 ∈ visited
    · simp [h1, List.mem_cons_of_mem _ h1]
    · by_cases h2 : e.1 = v <;> simp [h1, h2]

theorem unvisitedEdges_lookup (deps : List (String × List String))
    (visited : List String) (v : String) (ds : List String)
    (hv : v ∉ visited) (hlk : List.lookup v deps = some ds) :
    ds.length + unvisitedEdges deps (v :: visited) ≤
      unvisitedEdges deps visited := by
  induction deps with
  | nil => simp [List.lookup] at hlk
  | cons e rest ih =>
    simp only [unvisitedEdges]
    rw [List.lookup] at hlk
    by_cases he : v = e.1
    · have : (v == e.1) = true := beq_iff_eq.mpr he
      rw [this] at hlk
      cases hlk
      have hmem : e.1 ∈ v :: visited := by simp [he]
      have hnmem : e.1 ∉ visited := he ▸ hv
      simp only [hmem, hnmem, if_true, if_false]
      have := unvisitedEdges_cons_le rest visited v
      omega
    · have : (v == e.1) = false := by
        simp only [beq_eq_false_iff_ne, ne_eq]; exact he
      rw [this] at hlk
      have hrec := ih hlk
      have hsame : (if e.1 ∈ v :: visited then 0 else e.2.length) =
          (if e.1 ∈ visited then 0 else e.2.length) := by
        by_cases h1 : e.1 ∈ visited
        · simp [h1, List.mem_cons_of_mem _ h1]
        · have h2 : e.1 ∉ v :: visited := by
            intro hmem
            rcases List.mem_cons.mp hmem with h | h
            · exact he h.symm
            · exact h1 h
          simp [h1, h2]
      omega

theorem bfsLoop_isSome (deps : List (String × List String))
    (changed : List String) :
    ∀ fuel queue visited cnt minD sumD,
      queue.length + unvisitedEdges deps visited ≤ fuel →
      (bfsLoop deps changed fuel queue visited cnt minD sumD).isSome := by
  intro fuel
  induction fuel with
  | zero =>
    intro queue visited cnt minD sumD h
    cases queue with
    | nil => simp [bfsLoop]
    | cons p rest => simp at h
  | succ fuel ih =>
    intro queue visited cnt minD sumD h
    match queue with
    | [] => simp [bfsLoop]
    | (v, d) :: rest =>
      simp only [List.length_cons] at h
      rw [bfsLoop]
      by_cases hv : v ∈ visited
      · simp only [hv, if_true]
        exact ih rest visited cnt minD sumD (by omega)
      · simp only [hv, if_false]
        cases hlk : List.lookup v deps with
        | some ds =>
          simp only []
          apply ih
          have hdrop := unvisitedEdges_lookup deps visited v ds hv hlk
          simp only [List.length_append, List.length_map]
          omega
        | none =>
          simp only []
          apply ih
          have hdrop := unvisitedEdges_cons_le deps visited v
          omega

/-- The canonical fuel always suffices: the loop of `bfs_features` empties
its queue on every graph, change set and start node. -/
theorem bfsRun_isSome (test : String) (deps : List (String × List String))
    (changed : List String) : (bfsRun test deps changed).isSome := by
  apply bfsLoop_isSome
  rw [unvisitedEdges_nil_right]
  simp only [bfsFuel, List.length_cons, List.length_nil]
  omega

theorem bfsLoop_mono (deps : List (String × List String))
    (changed : List String) :
    ∀ fuel queue visited cnt minD sumD c m s,
      bfsLoop deps changed fuel queue visited cnt minD sumD = some (c, m, s) →
      cnt ≤ c ∧ m ≤ minD := by
  intro fuel
  induction fuel with
  | zero =>
    intro queue visited cnt minD sumD c m s h
    cases queue with
    | nil =>
      simp only [bfsLoop, Option.some.injEq, Prod.mk.injEq] at h
      omega
    | cons p rest => simp [bfsLoop] at h
  | succ fuel ih =>
    intro queue visited cnt minD sumD c m s h
    match queue with
    | [] =>
      simp only [bfsLoop, Option.some.injEq, Prod.mk.injEq] at h
      omega
    | (v, d) :: rest =>
      simp only [bfsLoop] at h
      by_cases hv : v ∈ visited
      · simp only [hv, if_true] at h
        exact ih _ _ _ _ _ _ _ _ h
      · simp only [hv, if_false] at h
        cases hlk : List.lookup v deps with
        | some ds =>
          rw [hlk] at h
          obtain ⟨h1, h2⟩ := ih _ _ _ _ _ _ _ _ h
          constructor
          · split_ifs at h1 <;> omega
          · split_ifs at h2 <;> omega
        | none =>
          rw [hlk] at h
          obtain ⟨h1, h2⟩ := ih _ _ _ _ _ _ _ _ h
          constructor
          · split_ifs at h1 <;> omega
          · split_ifs at h2 <;> omega

theorem bfsLoop_no_changed (deps : List (String × List String))
    (changed : List String) (root : String)
    (hno : ∀ v, Reach deps root v → v ∉ changed) :
    ∀ fuel queue visited cnt minD sumD c m s,
      (∀ p ∈ queue, Reach deps root p.1) →
      bfsLoop deps changed fuel queue visited cnt minD sumD = some (c, m, s) →
      c = cnt ∧ m = minD ∧ s = sumD := by
  intro fuel
  induction fuel with
  | zero =>
    intro queue visited cnt minD sumD c m s hq h
    cases queue with
    | nil =>
      simp only [bfsLoop, Option.some.injEq, Prod.mk.injEq] at h
      omega
    | cons p rest => simp [bfsLoop] at h
  | succ fuel ih =>
    intro queue visited cnt minD sumD c m s hq h
    match queue with
    | [] =>
      simp only [bfsLoop, Option.some.injEq, Prod.mk.injEq] at h
      omega
    | (v, d) :: rest =>
      have hrv : Reach deps root v := hq (v, d) (List.mem_cons_self _ _)
      have hvnc : v ∉ changed := hno v hrv
      have hrest : ∀ p ∈ rest, Reach deps root p.1 := fun p hp =>
        hq p (List.mem_cons_of_mem _ hp)
      simp only [bfsLoop] at h
      by_cases hv : v ∈ visited
      · simp only [hv, if_true] at h
        exact ih _ _ _ _ _ _ _ _ hrest h
      · simp only [hv, if_false, hvnc] at h
        cases hlk : List.lookup v deps with
        | some ds =>
          rw [hlk] at h
          apply ih _ _ _ _ _ _ _ _ _ h
          intro p hp
          rcases List.mem_append.mp hp with hp | hp
          · exact hrest p hp
          · rcases List.mem_map.mp hp with ⟨w, hw, hwp⟩
            exact hwp ▸ Reach.step hrv hlk hw
        | none =>
          rw [hlk] at h
          exact ih _ _ _ _ _ _ _ _ hrest h

theorem bfsLoop_avg (deps : List (String × List String))
    (changed : List String) :
    ∀ fuel queue visited cnt minD sumD c m s,
      bfsLoop deps changed fuel queue visited cnt minD sumD = some (c, m, s) →
      cnt * minD ≤ sumD → c * m ≤ s := by
  intro fuel
  induction fuel with
  | zero =>
    intro queue visited cnt minD sumD c m s h hinv
    cases queue with
    | nil =>
      simp only [bfsLoop, Option.some.injEq, Prod.mk.injEq] at h
      obtain ⟨h1, h2, h3⟩ := h
      exact h1 ▸ h2 ▸ h3 ▸ hinv
    | cons p rest => simp [bfsLoop] at h
  | succ fuel ih =>
    intro queue visited cnt minD sumD c m s h hinv
    match queue with
    | [] =>
      simp only [bfsLoop, Option.some.injEq, Prod.mk.injEq] at h
      obtain ⟨h1, h2, h3⟩ := h
      exact h1 ▸ h2 ▸ h3 ▸ hinv
    | (v, d) :: rest =>
      simp only [bfsLoop] at h
      by_cases hv : v ∈ visited
      · simp only [hv, if_true] at h
        exact ih _ _ _ _ _ _ _ _ h hinv
      · simp only [hv, if_false] at h
        by_cases hc : v ∈ changed
        · simp only [hc, if_true] at h
          by_cases hd : d < minD
          · simp only [hd, if_true] at h
            have hinv' : (cnt + 1) * d ≤ sumD + d := by
              calc (cnt + 1) * d = cnt * d + d := by rw [Nat.succ_mul]
                _ ≤ cnt * minD + d :=
                  Nat.add_le_add_right (mul_le_mul_left' hd.le cnt) d
                _ ≤ sumD + d := Nat.add_le_add_right hinv d
            cases hlk : List.lookup v deps with
            | some ds => rw [hlk] at h; exact ih _ _ _ _ _ _ _ _ h hinv'
            | none => rw [hlk] at h; exact ih _ _ _ _ _ _ _ _ h hinv'
          · simp only [hd, if_false] at h
            have hinv' : (cnt + 1) * minD ≤ sumD + d := by
              calc (cnt + 1) * minD = cnt * minD + minD := by rw [Nat.succ_mul]
                _ ≤ sumD + d := by omega
            cases hlk : List.lookup v deps with
            | some ds => rw [hlk] at h; exact ih _ _ _ _ _ _ _ _ h hinv'
            | none => rw [hlk] at h; exact ih _ _ _ _ _ _ _ _ h hinv'
        · simp only [hc, if_false] at h
          cases hlk : List.lookup v deps with
          | some ds => rw [hlk] at h; exact ih _ _ _ _ _ _ _ _ h hinv
          | none => rw [hlk] at h; exact ih _ _ _ _ _ _ _ _ h hinv

theorem lookup_mem {β : Type} (k : String) (v : β) :
    ∀ l : List (String × β), List.lookup k l = some v → (k, v) ∈ l := by
  intro l
  induction l with
  | nil => intro h; simp [List.lookup] at h
  | cons p rest ih =>
    obtain ⟨p1, p2⟩ := p
    intro h
    rw [List.lookup] at h
    cases hb : (k == p1) with
    | true =>
      rw [hb] at h
      cases h
      exact beq_iff_eq.mp hb ▸ List.mem_cons_self _ _
    | false =>
      rw [hb] at h
      exact List.mem_cons_of_mem _ (ih h)

theorem lookup_eq_of_mem_nodup {β : Type} :
    ∀ l : List (String × β), (l.map Prod.fst).Nodup →
      ∀ x : String × β, x ∈ l → List.lookup x.1 l = some x.2 := by
  intro l
  induction l with
  | nil => intro _ x hx; simp at hx
  | cons p rest ih =>
    intro hnd x hx
    obtain ⟨p1, p2⟩ := p
    simp only [List.map_cons, List.nodup_cons] at hnd
    rcases List.mem_cons.mp hx with hx | hx
    · subst hx
      simp [List.lookup]
    · have hne : x.1 ≠ p1 := by
        intro he
        exact hnd.1 (he ▸ List.mem_map_of_mem Prod.fst hx)
      rw [List.lookup]
      have hb : (x.1 == p1) = false := beq_eq_false_iff_ne.mpr hne
      rw [hb]
      exact ih hnd.2 x hx

theorem map_snd_zip_eq {α β : Type} :
    ∀ (l₁ : List α) (l₂ : List β), l₂.length ≤ l₁.length →
      (l₁.zip l₂).map Prod.snd = l₂ := by
  intro l₁
  induction l₁ with
  | nil =>
    intro l₂ h
    cases l₂ with
    | nil => rfl
    | cons b bs => simp at h
  | cons a as ih =>
    intro l₂ h
    cases l₂ with
    | nil => rfl
    | cons b bs =>
      simp only [List.zip_cons_cons, List.map_cons, List.cons.injEq, true_and]
      exact ih bs (by simpa using h)

/-- C4: on the diamond graph (A depends on S1 and S2, which both depend on
the changed file S3) the BFS counts S3 once: count 1, min distance 2,
average distance 2.0. -/
theorem claim_C4 :
    bfs_features "A" [("A", ["S1", "S2"]), ("S1", ["S3"]), ("S2", ["S3"])]
      ["S3"] = (1, 2, (2 : Rat)) := by
  simp +decide [bfs_features, bfsRun, bfsFuel, bfsLoop, List.lookup]

/-- C5: the BFS loop terminates on every dependency graph (the canonical
fuel always yields a result), and on the cyclic graph A → B → A with
nothing changed the features of A are (0, 999999, 999999). -/
theorem claim_C5 :
    (∀ test deps changed, ∃ r, bfsRun test deps changed = some r)
    ∧ bfs_features "A" [("A", ["B"]), ("B", ["A"])] [] =
        (0, 999999, (999999 : Rat)) := by
  constructor
  · intro test deps changed
    exact Option.isSome_iff_exists.mp (bfsRun_isSome test deps changed)
  · simp +decide [bfs_features, bfsRun, bfsFuel, bfsLoop, List.lookup]

/-- C8: when the prior hash state is missing or unreadable `load_hashes`
yields the empty mapping, and against an empty baseline every current file
is in the change set. -/
theorem claim_C8 :
    load_hashes none = []
    ∧ ∀ newH : List (String × String),
        changedFiles newH (load_hashes none) = newH.map Prod.fst := by
  constructor
  · rfl
  · intro newH
    simp only [load_hashes, changedFiles, List.lookup_nil]
    rw [List.filter_eq_self.mpr]
    intro p _
    rfl

theorem bfsRun_changed_root (test : String)
    (deps : List (String × List String)) (changed : List String)
    (hc : test ∈ changed) (c m s : Nat)
    (h : bfsRun test deps changed = some (c, m, s)) : 1 ≤ c ∧ m = 0 := by
  rw [bfsRun, bfsFuel] at h
  simp only [bfsLoop, List.not_mem_nil, if_false, hc, if_true] at h
  rw [if_pos (by norm_num : (0 : Nat) < 999999)] at h
  cases hlk : List.lookup test deps with
  | some ds =>
    simp only [hlk] at h
    obtain ⟨h1, h2⟩ := bfsLoop_mono deps changed _ _ _ _ _ _ _ _ _ h
    exact ⟨h1, Nat.le_zero.mp h2⟩
  | none =>
    simp only [hlk, Option.some.injEq, Prod.mk.injEq] at h
    omega

/-- C1: a pair of the ranked output whose test is in the change set carries
score exactly 1.0, whatever the model returns; and the feature vector of a
test that is itself changed has `changed_reachable_count ≥ 1` and
`min_distance = 0`. -/
theorem claim_C1 :
    (∀ (predict : List (Nat × Nat × Rat) → List Rat) (tests : List String)
        (deps : List (String × List String)) (changed : List String),
      ∀ p ∈ rank predict tests deps changed, p.2 ∈ changed → p.1 = 1)
    ∧ (∀ (test : String) (deps : List (String × List String))
        (changed : List String), test ∈ changed →
      1 ≤ (bfs_features test deps changed).1 ∧
        (bfs_features test deps changed).2.1 = 0) := by
  constructor
  · intro predict tests deps changed p hp hpc
    rw [rank] at hp
    rw [List.mem_insertionSort] at hp
    obtain ⟨i, hi, hget⟩ := List.mem_iff_getElem.mp hp
    rw [List.getElem_zip, List.getElem_map, List.getElem_zip] at hget
    subst hget
    simp only at hpc ⊢
    rw [if_pos hpc]
  · intro test deps changed hc
    obtain ⟨⟨c, m, s⟩, hr⟩ :=
      Option.isSome_iff_exists.mp (bfsRun_isSome test deps changed)
    obtain ⟨h1, h2⟩ := bfsRun_changed_root test deps changed hc c m s hr
    have hc0 : c ≠ 0 := by omega
    simp only [bfs_features, hr, hc0, if_true, ne_eq, not_false_iff]
    subst h2
    exact ⟨h1, rfl⟩

theorem claim_C1_witness :
    (((1 : Rat), "t1") ∈ rank (fun _ => [(0 : Rat), 0]) ["t1", "t2"] [] ["t1"])
    ∧ ("t1" ∈ (["t1"] : List String))
    ∧ (((1 : Rat), "t1") : Rat × String).1 = 1
    ∧ (1 ≤ (bfs_features "t1" [] ["t1"]).1 ∧
        (bfs_features "t1" [] ["t1"]).2.1 = 0) := by
  have hmem : ((1 : Rat), "t1") ∈
      rank (fun _ => [(0 : Rat), 0]) ["t1", "t2"] [] ["t1"] := by
    simp +decide [rank, bfs_features, bfsRun, bfsFuel, bfsLoop,
      List.insertionSort, List.orderedInsert, pairDesc]
  have hc : "t1" ∈ (["t1"] : List String) := List.mem_singleton.mpr rfl
  exact ⟨hmem, hc, claim_C1.1 _ _ _ _ _ hmem hc, claim_C1.2 "t1" [] ["t1"] hc⟩

/-- C2: the ranked output is sorted by descending score with ties broken by
descending lexicographic order of the test path (`pairDesc`); concretely,
"alpha_test" and "beta_test" with identical scores 0.5 come out with
"beta_test" first. -/
theorem claim_C2 :
    (∀ (predict : List (Nat × Nat × Rat) → List Rat) (tests : List String)
        (deps : List (String × List String)) (changed : List String),
      List.Sorted pairDesc (rank predict tests deps changed))
    ∧ rank (fun _ => [(1 : Rat)/2, (1 : Rat)/2])
        ["alpha_test", "beta_test"] [] [] =
        [((1 : Rat)/2, "beta_test"), ((1 : Rat)/2, "alpha_test")] := by
  constructor
  · intro predict tests deps changed
    exact List.sorted_insertionSort pairDesc _
  · have hba : ¬(("beta_test" : String) ≤ "alpha_test") := by
      simp
      decide
    norm_num [rank, bfs_features, bfsRun, bfsFuel, bfsLoop,
      List.insertionSort, List.orderedInsert, pairDesc, hba]

/-- C3: when the model returns one score per test (its contract), the
ranked output pairs up with exactly the input tests: its second components
are a permutation of the input test list. -/
theorem claim_C3 (predict : List (Nat × Nat × Rat) → List Rat)
    (tests : List String) (deps : List (String × List String))
    (changed : List String)
    (hlen : (predict (tests.map (fun t => bfs_features t deps changed))).length
      = tests.length) :
    ((rank predict tests deps changed).map Prod.snd).Perm tests := by
  rw [rank]
  have hperm := List.perm_insertionSort pairDesc
    ((((predict (tests.map (fun t => bfs_features t deps changed))).zip
      tests).map (fun vt => if vt.2 ∈ changed then (1 : Rat) else vt.1)).zip
      tests)
  refine (hperm.map Prod.snd).trans ?_
  rw [map_snd_zip_eq]
  simp only [List.length_map, List.length_zip, hlen]
  omega

theorem claim_C3_witness :
    ((fun _ : List (Nat × Nat × Rat) => [(0 : Rat), 0])
        (["a", "b"].map (fun t => bfs_features t [] []))).length =
      (["a", "b"] : List String).length
    ∧ ((rank (fun _ => [(0 : Rat), 0]) ["a", "b"] [] []).map Prod.snd).Perm
        ["a", "b"] :=
  ⟨rfl, claim_C3 (fun _ => [(0 : Rat), 0]) ["a", "b"] [] [] rfl⟩

/-- C6: a test from which no changed node is reachable gets count 0 and the
sentinel 999999 for both distances. -/
theorem claim_C6 (test : String) (deps : List (String × List String))
    (changed : List String)
    (hno : ∀ v, Reach deps test v → v ∉ changed) :
    bfs_features test deps changed = (0, 999999, (999999 : Rat)) := by
  obtain ⟨⟨c, m, s⟩, hr⟩ :=
    Option.isSome_iff_exists.mp (bfsRun_isSome test deps changed)
  obtain ⟨hc, hm, hs⟩ := bfsLoop_no_changed deps changed test hno
    (bfsFuel deps) [(test, 0)] [] 0 999999 0 c m s
    (by
      intro p hp
      rcases List.mem_cons.mp hp with hp | hp
      · rw [hp]
        exact Reach.refl
      · simp at hp)
    hr
  subst hc hm hs
  simp [bfs_features, hr]

theorem claim_C6_witness :
    (∀ v, Reach [("A", ["B"])] "A" v → v ∉ (["C"] : List String))
    ∧ bfs_features "A" [("A", ["B"])] ["C"] =
        (0, 999999, (999999 : Rat)) := by
  have hreach : ∀ v, Reach [("A", ["B"])] "A" v → v = "A" ∨ v = "B" := by
    intro v h
    induction h with
    | refl => exact Or.inl rfl
    | step hr hlk hm ih =>
      rcases ih with h | h
      · subst h
        simp [List.lookup] at hlk
        subst hlk
        simp at hm
        exact Or.inr hm
      · subst h
        simp +decide [List.lookup] at hlk
  have hno : ∀ v, Reach [("A", ["B"])] "A" v → v ∉ (["C"] : List String) := by
    intro v h
    rcases hreach v h with h | h <;> subst h <;> simp
  exact ⟨hno, claim_C6 "A" [("A", ["B"])] ["C"] hno⟩

/-- C7: under a duplicate-free current hash mapping, a file is in the change
set iff it is a current file that is absent from the prior mapping or whose
hash differs from the prior one; and the change set only contains current
files. -/
theorem claim_C7 (newH oldH : List (String × String))
    (hnodup : (newH.map Prod.fst).Nodup) :
    (∀ f hsh, List.lookup f newH = some hsh →
      (f ∈ changedFiles newH oldH ↔
        (List.lookup f oldH = none ∨ List.lookup f oldH ≠ some hsh)))
    ∧ (∀ f ∈ changedFiles newH oldH, f ∈ newH.map Prod.fst) := by
  constructor
  · intro f hsh hlf
    constructor
    · intro hmem
      rw [changedFiles] at hmem
      obtain ⟨x, hx, hxf⟩ := List.mem_map.mp hmem
      obtain ⟨hxmem, hxp⟩ := List.mem_filter.mp hx
      have hxl := lookup_eq_of_mem_nodup newH hnodup x hxmem
      rw [hxf, hlf] at hxl
      have hv : x.2 = hsh := by
        injection hxl with hv'
        exact hv'.symm
      cases hlo : List.lookup x.1 oldH with
      | none =>
        rw [hxf] at hlo
        exact Or.inl hlo
      | some hold =>
        rw [hlo] at hxp
        simp only [decide_eq_true_eq] at hxp
        right
        rw [← hxf, hlo]
        intro hcontra
        injection hcontra with hcontra
        exact (hv ▸ hxp) hcontra.symm
    · intro hcond
      have hentry : (f, hsh) ∈ newH := lookup_mem f hsh newH hlf
      rw [changedFiles]
      apply List.mem_map.mpr
      refine ⟨(f, hsh), List.mem_filter.mpr ⟨hentry, ?_⟩, rfl⟩
      cases hlo : List.lookup f oldH with
      | none => rfl
      | some hold =>
        rcases hcond with hcond | hcond
        · rw [hlo] at hcond
          cases hcond
        · rw [hlo] at hcond
          simp only [decide_eq_true_eq]
          intro he
          exact hcond (he ▸ rfl)
  · intro f hf
    rw [changedFiles] at hf
    obtain ⟨x, hx, hxf⟩ := List.mem_map.mp hf
    exact hxf ▸ List.mem_map_of_mem Prod.fst (List.mem_filter.mp hx).1

theorem claim_C7_witness :
    ((([("a", "h1"), ("b", "h2")] : List (String × String)).map
      Prod.fst).Nodup)
    ∧ ((∀ f hsh,
        List.lookup f [("a", "h1"), ("b", "h2")] = some hsh →
        (f ∈ changedFiles [("a", "h1"), ("b", "h2")] [("a", "h1")] ↔
          (List.lookup f [("a", "h1")] = none ∨
            List.lookup f [("a", "h1")] ≠ some hsh)))
      ∧ (∀ f ∈ changedFiles [("a", "h1"), ("b", "h2")] [("a", "h1")],
          f ∈ ([("a", "h1"), ("b", "h2")] : List (String × String)).map
            Prod.fst)) := by
  have hnd : (([("a", "h1"), ("b", "h2")] : List (String × String)).map
      Prod.fst).Nodup := by
    simp
  exact ⟨hnd, claim_C7 [("a", "h1"), ("b", "h2")] [("a", "h1")] hnd⟩

/-- C10: whenever the BFS found at least one changed node, the reported
minimum distance is at most the reported average distance (and is
non-negative). -/
theorem claim_C10 (test : String) (deps : List (String × List String))
    (changed : List String) (c m : Nat) (a : Rat)
    (h : bfs_features test deps changed = (c, m, a)) (hc : 0 < c) :
    (0 : Rat) ≤ (m : Rat) ∧ (m : Rat) ≤ a := by
  obtain ⟨⟨c', m', s'⟩, hr⟩ :=
    Option.isSome_iff_exists.mp (bfsRun_isSome test deps changed)
  have havg := bfsLoop_avg deps changed (bfsFuel deps) [(test, 0)] [] 0
    999999 0 c' m' s' hr (by simp)
  simp only [bfs_features, hr] at h
  by_cases hc' : c' = 0
  · rw [if_neg (by simp [hc'])] at h
    injection h with h1 h2
    omega
  · rw [if_pos hc'] at h
    injection h with h1 h2
    injection h2 with h2 h3
    subst h1 h2 h3
    refine ⟨Nat.cast_nonneg _, ?_⟩
    rw [le_div_iff₀ (by exact_mod_cast Nat.pos_of_ne_zero hc')]
    calc ((m' : Rat)) * (c' : Rat) = ((m' * c' : Nat) : Rat) := by
          push_cast
          ring
      _ ≤ (s' : Rat) := by
          have : m' * c' ≤ s' := by
            calc m' * c' = c' * m' := Nat.mul_comm _ _
              _ ≤ s' := havg
          exact_mod_cast this

theorem claim_C10_witness :
    (0 : Nat) < 1 ∧ ((0 : Rat) ≤ ((2 : Nat) : Rat) ∧
      ((2 : Nat) : Rat) ≤ (2 : Rat)) := by
  have h : bfs_features "A"
      [("A", ["S1", "S2"]), ("S1", ["S3"]), ("S2", ["S3"])] ["S3"] =
      (1, 2, (2 : Rat)) := by
    simp +decide [bfs_features, bfsRun, bfsFuel, bfsLoop, List.lookup]
  exact ⟨by norm_num,
    claim_C10 "A" [("A", ["S1", "S2"]), ("S1", ["S3"]), ("S2", ["S3"])]
      ["S3"] 1 2 2 h (by norm_num)⟩

theorem touchedKeys_cons (e : String × List String ×
    List (String × String × String)) (rest : ExtractMap)
    (relp : String → String) :
    touchedKeys (e :: rest) relp =
      (if e.2.1.isEmpty then [] else e.2.2.map (fun it => relp it.1)) ++
        touchedKeys rest relp := by
  by_cases h : e.2.1.isEmpty <;>
    simp [touchedKeys, List.filter_cons, h]

theorem lookup_setKey_self (k : String) (v : List String) :
    ∀ acc, List.lookup k (setKey acc k v) = some v := by
  intro acc
  induction acc with
  | nil => simp [setKey, List.lookup]
  | cons p rest ih =>
    obtain ⟨p1, p2⟩ := p
    by_cases h : p1 = k
    · simp [setKey, h, List.lookup]
    · have hb : (k == p1) = false :=
        beq_eq_false_iff_ne.mpr (fun hh => h hh.symm)
      simp only [setKey, h, if_false]
      rw [List.lookup, hb]
      exact ih

theorem lookup_setKey_ne (k k' : String) (v : List String) (hne : k' ≠ k) :
    ∀ acc, List.lookup k' (setKey acc k v) = List.lookup k' acc := by
  intro acc
  induction acc with
  | nil =>
    have hb : (k' == k) = false := beq_eq_false_iff_ne.mpr hne
    simp [setKey, List.lookup, hb]
  | cons p rest ih =>
    obtain ⟨p1, p2⟩ := p
    by_cases h : p1 = k
    · subst h
      have hb : (k' == p1) = false := beq_eq_false_iff_ne.mpr hne
      simp [setKey, List.lookup, hb]
    · simp only [setKey, h, if_false]
      cases hb : (k' == p1) with
      | true => simp [List.lookup, hb]
      | false => simp [List.lookup, hb, ih]

theorem mem_keys_setKey (k k' : String) (v : List String) :
    ∀ acc, k' ∈ (setKey acc k v).map Prod.fst →
      k' ∈ acc.map Prod.fst ∨ k' = k := by
  intro acc
  induction acc with
  | nil =>
    intro h
    simp [setKey] at h
    exact Or.inr h
  | cons p rest ih =>
    obtain ⟨p1, p2⟩ := p
    intro h
    by_cases hk : p1 = k
    · subst hk
      simp [setKey] at h ⊢
      tauto
    · simp only [setKey, hk, if_false, List.map_cons, List.mem_cons] at h ⊢
      rcases h with h | h
      · tauto
      · rcases ih h with h | h <;> tauto

theorem addItems_lookup_preserve (files : ExtractMap)
    (relp : String → String) (deps : List String) (k : String) :
    ∀ (items : List (String × String × String)) acc,
      (∀ it ∈ items, relp it.1 ≠ k) →
      List.lookup k (addItems files relp deps items acc) =
        List.lookup k acc := by
  intro items
  induction items with
  | nil => intro acc _; rfl
  | cons it0 rest ih =>
    intro acc hk
    rw [addItems]
    rw [ih _ (fun it hit => hk it (List.mem_cons_of_mem _ hit))]
    exact lookup_setKey_ne _ k _
      (fun he => hk it0 (List.mem_cons_self _ _) he.symm) acc

theorem addItems_lookup_mem (files : ExtractMap)
    (relp : String → String) (deps : List String) (k : String) :
    ∀ (items : List (String × String × String)) acc,
      (items.map (fun it => relp it.1)).Nodup →
      (∃ it ∈ items, relp it.1 = k) →
      List.lookup k (addItems files relp deps items acc) =
        some (resolveDeps files relp deps) := by
  intro items
  induction items with
  | nil =>
    intro acc _ hex
    rcases hex with ⟨it, hit, _⟩
    simp at hit
  | cons it0 rest ih =>
    intro acc hnd hex
    simp only [List.map_cons, List.nodup_cons] at hnd
    rw [addItems]
    by_cases hk : relp it0.1 = k
    · have hrest : ∀ it ∈ rest, relp it.1 ≠ k := by
        intro it hit he
        exact hnd.1 ((hk.trans he.symm) ▸ List.mem_map_of_mem _ hit)
      rw [addItems_lookup_preserve files relp deps k rest _ hrest]
      rw [← hk]
      exact lookup_setKey_self _ _ acc
    · rcases hex with ⟨it, hit, hitk⟩
      rcases List.mem_cons.mp hit with h | h
      · exact absurd (h ▸ hitk) hk
      · exact ih _ hnd.2 ⟨it, h, hitk⟩

theorem addItems_keys (files : ExtractMap) (relp : String → String)
    (deps : List String) (k : String) :
    ∀ (items : List (String × String × String)) acc,
      k ∈ (addItems files relp deps items acc).map Prod.fst →
      k ∈ acc.map Prod.fst ∨ ∃ it ∈ items, relp it.1 = k := by
  intro items
  induction items with
  | nil => intro acc h; exact Or.inl h
  | cons it0 rest ih =>
    intro acc h
    rw [addItems] at h
    rcases ih _ h with h | h
    · rcases mem_keys_setKey _ k _ acc h with h | h
      · exact Or.inl h
      · exact Or.inr ⟨it0, List.mem_cons_self _ _, h.symm⟩
    · rcases h with ⟨it, hit, hitk⟩
      exact Or.inr ⟨it, List.mem_cons_of_mem _ hit, hitk⟩

theorem buildDeps_preserve (files : ExtractMap) (relp : String → String)
    (k : String) :
    ∀ (entries : ExtractMap) acc, k ∉ touchedKeys entries relp →
      List.lookup k (buildDeps files relp entries acc) =
        List.lookup k acc := by
  intro entries
  induction entries with
  | nil => intro acc _; rfl
  | cons e0 rest ih =>
    intro acc hk
    rw [touchedKeys_cons] at hk
    simp only [List.mem_append, not_or] at hk
    rw [buildDeps, ih _ hk.2]
    by_cases he : e0.2.1.isEmpty
    · rw [if_pos he]
    · rw [if_neg he]
      apply addItems_lookup_preserve
      intro it hit hitk
      apply hk.1
      rw [if_neg he]
      exact hitk ▸ List.mem_map_of_mem _ hit

theorem buildDeps_keys (files : ExtractMap) (relp : String → String)
    (k : String) :
    ∀ (entries : ExtractMap) acc,
      k ∈ (buildDeps files relp entries acc).map Prod.fst →
      k ∈ acc.map Prod.fst ∨ k ∈ touchedKeys entries relp := by
  intro entries
  induction entries with
  | nil => intro acc h; exact Or.inl h
  | cons e0 rest ih =>
    intro acc h
    rw [buildDeps] at h
    rw [touchedKeys_cons]
    rcases ih _ h with h | h
    · by_cases he : e0.2.1.isEmpty
      · rw [if_pos he] at h
        exact Or.inl h
      · rw [if_neg he] at h
        rcases addItems_keys files relp _ k _ acc h with h | h
        · exact Or.inl h
        · rcases h with ⟨it, hit, hitk⟩
          refine Or.inr (List.mem_append.mpr (Or.inl ?_))
          rw [if_neg he]
          exact hitk ▸ List.mem_map_of_mem _ hit
    · exact Or.inr (List.mem_append.mpr (Or.inr h))

theorem buildDeps_lookup (files : ExtractMap) (relp : String → String) :
    ∀ (entries : ExtractMap) acc, (touchedKeys entries relp).Nodup →
      ∀ e ∈ entries, e.2.1.isEmpty = false → ∀ it ∈ e.2.2,
        List.lookup (relp it.1) (buildDeps files relp entries acc) =
          some (resolveDeps files relp e.2.1) := by
  intro entries
  induction entries with
  | nil =>
    intro acc _ e he
    simp at he
  | cons e0 rest ih =>
    intro acc hnd e he hne it hit
    rw [touchedKeys_cons] at hnd
    rw [buildDeps]
    rcases List.mem_cons.mp he with he | he
    · subst he
      rw [hne] at hnd
      simp only [Bool.false_eq_true, if_false] at hnd
      rw [List.nodup_append] at hnd
      have hself : List.lookup (relp it.1)
          (addItems files relp e.2.1 e.2.2 acc) =
          some (resolveDeps files relp e.2.1) :=
        addItems_lookup_mem files relp e.2.1 (relp it.1) e.2.2 acc hnd.1
          ⟨it, hit, rfl⟩
      have hnot : relp it.1 ∉ touchedKeys rest relp :=
        hnd.2.2 (List.mem_map_of_mem _ hit)
      rw [hne]
      simp only [Bool.false_eq_true, if_false]
      rw [buildDeps_preserve files relp _ rest _ hnot]
      exact hself
    · have hnd2 : (touchedKeys rest relp).Nodup :=
        (List.nodup_append.mp hnd).2.1
      exact ih _ hnd2 e he hne it hit

/-- C9: only files with a nonempty dependency set contribute keys to the
graph built by `get_dependencies` (dependency-free files are implicit
leaves); and — when the resolved candidate paths are pairwise distinct, as
they are for a dict of distinct files — the entry of each such file is
exactly the concatenation, over its logical dependency ids, of all concrete
paths realizing them (`resolveDeps`), so a single logical dependency may
contribute several graph edges. -/
theorem claim_C9 (files : ExtractMap) (relp : String → String) :
    (∀ k, k ∈ (get_dependencies files relp).map Prod.fst →
      ∃ e ∈ files, e.2.1.isEmpty = false ∧ ∃ it ∈ e.2.2, relp it.1 = k)
    ∧ ((touchedKeys files relp).Nodup →
      ∀ e ∈ files, e.2.1.isEmpty = false → ∀ it ∈ e.2.2,
        List.lookup (relp it.1) (get_dependencies files relp) =
          some (resolveDeps files relp e.2.1)) := by
  constructor
  · intro k hk
    rcases buildDeps_keys files relp k files [] hk with h | h
    · simp at h
    · rw [touchedKeys] at h
      rcases List.mem_flatMap.mp h with ⟨e, he, hke⟩
      rcases List.mem_filter.mp he with ⟨hef, hep⟩
      rcases List.mem_map.mp hke with ⟨it, hit, hitk⟩
      exact ⟨e, hef, by simpa using hep, it, hit, hitk⟩
  · intro hnd e he hne it hit
    exact buildDeps_lookup files relp files [] hnd e he hne it hit

theorem claim_C9_witness :
    ((touchedKeys [("t", (["m"], [("T.py", "py", "s")])),
        ("m", ([], [("M1.py", "py", "s"), ("M2.py", "py", "s")]))] id).Nodup)
    ∧ List.lookup (id "T.py")
        (get_dependencies [("t", (["m"], [("T.py", "py", "s")])),
          ("m", ([], [("M1.py", "py", "s"), ("M2.py", "py", "s")]))] id) =
        some (resolveDeps [("t", (["m"], [("T.py", "py", "s")])),
          ("m", ([], [("M1.py", "py", "s"), ("M2.py", "py", "s")]))] id
          ["m"])
    ∧ resolveDeps [("t", (["m"], [("T.py", "py", "s")])),
        ("m", ([], [("M1.py", "py", "s"), ("M2.py", "py", "s")]))] id
        ["m"] = ["M1.py", "M2.py"] := by
  have hnd : (touchedKeys [("t", (["m"], [("T.py", "py", "s")])),
      ("m", ([], [("M1.py", "py", "s"), ("M2.py", "py", "s")]))] id).Nodup := by
    simp [touchedKeys]
  refine ⟨hnd, ?_, ?_⟩
  · exact (claim_C9 [("t", (["m"], [("T.py", "py", "s")])),
      ("m", ([], [("M1.py", "py", "s"), ("M2.py", "py", "s")]))] id).2 hnd
      ("t", (["m"], [("T.py", "py", "s")])) (List.mem_cons_self _ _) rfl
      ("T.py", "py", "s") (List.mem_singleton.mpr rfl)
  · simp +decide [resolveDeps, List.lookup]

end FastTP
